import Mathlib

/-!
Shallow embedding of the yk_project memory/scheduler subsystem
(`src/server/utils/context.py`, `src/server/utils/tool_handler.py`,
`src/server/utils/ai.py`, `src/server/memory/memtools.py`,
`src/server/sleep_time/sleeper_agent.py`) together with theorems settling
the frozen claims about it.

Python strings are modelled as Lean `String`/`List Char`, Python floats as
exact rationals (`ℚ`) or reals (`ℝ`) where square roots occur, dictionaries
and JSON files as structures with `Option` fields for keys that may be
absent, and the file system as explicit state records.
-/

namespace YK

/-! ## Context manager (`src/server/utils/context.py`) -/

/-- `count_tokens(text)`: `len(text) / 4` with Python true division; the
result is modelled as an exact rational. -/
def count_tokens (text : String) : ℚ :=
  (text.length : ℚ) / 4

/-- Sum of `count_tokens(json.dumps(m))` over a message list; messages are
identified with their JSON serialization. -/
def sumTokens (messages : List String) : ℚ :=
  (messages.map count_tokens).sum

/-- The `while total_tokens > available_tokens` loop of `trim_context`:
pops the oldest message into the trimmed list until the remainder fits in
`available` or the list is exhausted. Returns `(messages_copy, trimmed)`. -/
def trimLoop (available : ℚ) : List String → List String × List String
  | [] => ([], [])
  | m :: rest =>
    if sumTokens (m :: rest) > available then
      let r := trimLoop available rest
      (r.1, m :: r.2)
    else
      (m :: rest, [])

/-- `trim_context(messages, max_tokens, system_messages)`:
`available = max_tokens - sum(count_tokens(dumps(s)))`, then remove oldest
messages while the total estimate exceeds `available`. -/
def trim_context (messages : List String) (max_tokens : ℚ)
    (system_messages : List String) : List String × List String :=
  trimLoop (max_tokens - sumTokens system_messages) messages

theorem trimLoop_append_eq (available : ℚ) (l : List String) :
    (trimLoop available l).2 ++ (trimLoop available l).1 = l := by
  induction l with
  | nil => simp [trimLoop]
  | cons m rest ih =>
    by_cases h : sumTokens (m :: rest) > available
    · simp [trimLoop, h, ih]
    · simp [trimLoop, h]

theorem trimLoop_fits (available : ℚ) (l : List String) :
    sumTokens (trimLoop available l).1 ≤ available ∨
      (trimLoop available l).1 = [] := by
  induction l with
  | nil => simp [trimLoop]
  | cons m rest ih =>
    by_cases h : sumTokens (m :: rest) > available
    · simpa [trimLoop, h] using ih
    · left
      simpa [trimLoop, h] using not_lt.mp h

/-- C3 (counterexample): with messages `["aaaa", "bbbb"]` (one token each),
budget `1` and no system messages, `trim_context` removes `"aaaa"` and the
claimed equation `kept ++ trimmed == messages` fails (the code satisfies
`trimmed ++ kept == messages` instead). -/
theorem trim_context_not_kept_trimmed :
    ¬ ((trim_context ["aaaa", "bbbb"] 1 []).1 ++
        (trim_context ["aaaa", "bbbb"] 1 []).2 = ["aaaa", "bbbb"]) := by
  have h4 : count_tokens "aaaa" = 1 := by
    have h : ("aaaa" : String).length = 4 := rfl
    rw [count_tokens, h]; norm_num
  have hb : count_tokens "bbbb" = 1 := by
    have h : ("bbbb" : String).length = 4 := rfl
    rw [count_tokens, h]; norm_num
  have hres : trim_context ["aaaa", "bbbb"] 1 [] = (["bbbb"], ["aaaa"]) := by
    norm_num [trim_context, trimLoop, sumTokens, h4, hb]
  rw [hres]
  simp

/-- C3 (amended): `trim_context(messages, B, S)` returns `(kept, trimmed)`
with `trimmed ++ kept == messages` (`trimmed` is the removed oldest-first
prefix), and on return either the total token estimate of `kept` is within
`B` minus the token estimate of `S`, or `kept` is empty. -/
theorem trim_context_spec (messages : List String) (B : ℚ)
    (S : List String) :
    (trim_context messages B S).2 ++ (trim_context messages B S).1 =
        messages ∧
      (sumTokens (trim_context messages B S).1 ≤ B - sumTokens S ∨
        (trim_context messages B S).1 = []) :=
  ⟨trimLoop_append_eq _ _, trimLoop_fits _ _⟩

/-- C4 (counterexample): for the one-character text `"a"`,
`count_tokens` returns `1/4`, not `⌈1/4⌉ = 1`: the estimate is Python true
division, not a ceiling. -/
theorem count_tokens_not_ceil :
    ¬ (count_tokens "a" = (⌈(("a" : String).length : ℚ) / 4⌉ : ℚ)) := by
  have h : ("a" : String).length = 1 := rfl
  rw [count_tokens, h]
  have hc : (⌈((1 : ℕ) : ℚ) / 4⌉ : ℤ) = 1 := by
    rw [Int.ceil_eq_iff]
    norm_num
  rw [hc]
  norm_num

/-- C4 (amended): the context manager's token estimate is the exact
(unrounded) quotient `len(text) / 4`; it agrees with the claimed ceiling
`⌈len(text) / 4⌉` exactly when the text length is a multiple of 4. -/
theorem count_tokens_eq_ceil_iff (text : String) :
    count_tokens text = (⌈(text.length : ℚ) / 4⌉ : ℚ) ↔ 4 ∣ text.length := by
  unfold count_tokens
  constructor
  · intro h
    have hz : (text.length : ℚ) = 4 * (⌈(text.length : ℚ) / 4⌉ : ℚ) := by
      rw [← h]; ring
    have hz' : (text.length : ℤ) = 4 * ⌈(text.length : ℚ) / 4⌉ := by
      exact_mod_cast hz
    omega
  · rintro ⟨k, hk⟩
    rw [hk]
    have h4 : ((4 * k : ℕ) : ℚ) / 4 = (k : ℚ) := by
      push_cast; ring
    rw [h4, Int.ceil_natCast]
    norm_cast

/-! ## Python string primitives used by the memory editors -/

/-- Python whitespace as recognised by `str.strip()` (the characters that
occur in this code base's data). -/
def isPySpace (c : Char) : Bool :=
  c == ' ' || c == '\t' || c == '\n' || c == '\r' || c == '\x0b' || c == '\x0c'

/-- Python `str.strip()`: remove leading and trailing whitespace. -/
def pyStrip (s : List Char) : List Char :=
  ((s.dropWhile isPySpace).reverse.dropWhile isPySpace).reverse

/-- Python `pat in s` substring test. -/
def pyContains (s pat : List Char) : Bool :=
  (List.range (s.length + 1)).any fun i => pat.isPrefixOf (s.drop i)

/-- Python `s.replace(pat, rep)`: replace non-overlapping occurrences of
`pat` left to right. (The editors only invoke it with `pat ≠ []`, because
an empty `old_text` is falsy and takes the append branch; the `pat = []`
behaviour of this model is therefore irrelevant to them.) -/
def replaceAll (pat rep : List Char) (s : List Char) : List Char :=
  if h : pat ≠ [] ∧ pat.isPrefixOf s then
    rep ++ replaceAll pat rep (s.drop pat.length)
  else
    match s with
    | [] => []
    | c :: rest => c :: replaceAll pat rep rest
termination_by s.length
decreasing_by
  · have hpre : pat <+: s := List.isPrefixOf_iff_prefix.mp h.2
    have hle : pat.length ≤ s.length := hpre.length_le
    have hpos : 0 < pat.length := List.length_pos.mpr h.1
    simp only [List.length_drop]
    omega
  · simp

/-! ## Memory blocks (`src/server/memory/memtools.py`) -/

/-- A stored memory-block JSON file. `Option` fields model keys that may
be absent from the file (`data.get(...)` defaults apply on read). -/
structure StoredBlock where
  content? : Option (List Char)
  currentChars? : Option ℕ
  maxChars? : Option ℕ
  deriving DecidableEq

/-- The shared replace-or-append step of `core_memory_edit` and
`vector_memory_edit`: if `old_text` is truthy and occurs in the content,
replace all occurrences; otherwise append `new_text` after a single space
and strip. -/
def editContent (content new_text old_text : List Char) : List Char :=
  if old_text ≠ [] then
    if pyContains content old_text then replaceAll old_text new_text content
    else pyStrip (content ++ ' ' :: new_text)
  else pyStrip (content ++ ' ' :: new_text)

/-- The update path shared by both editors on an existing block: compute
the new content, reject if it exceeds `max_chars` (default 5000) leaving
the stored block untouched, otherwise write content and metadata back.
Returns `(success, stored block after the call)`. -/
def updateBlock (b : StoredBlock) (new_text old_text : List Char) :
    Bool × StoredBlock :=
  let content' := editContent (b.content?.getD []) new_text old_text
  let current := content'.length
  let mx := b.maxChars?.getD 5000
  if current > mx then (false, b)
  else (true, ⟨some content', some current, some mx⟩)

/-- `core_memory_edit(label, new_text, old_text)` acting on the stored
block for `label` (`none` when the file does not exist). Returns
`(success, stored block after the call)`. -/
def core_memory_edit (b? : Option StoredBlock) (new_text old_text : List Char) :
    Bool × Option StoredBlock :=
  match b? with
  | none => (false, none)
  | some b =>
    let r := updateBlock b new_text old_text
    (r.1, some r.2)

/-- `vector_memory_edit(label, new_text, old_text)` acting on the stored
block for `label`: a missing block is created from the stripped `new_text`
with `max_chars = 5000` and no size check; an existing block goes through
the same update path as `core_memory_edit`. -/
def vector_memory_edit (b? : Option StoredBlock)
    (new_text old_text : List Char) : Bool × Option StoredBlock :=
  match b? with
  | none =>
    (true, some ⟨some (pyStrip new_text), some (pyStrip new_text).length, some 5000⟩)
  | some b =>
    let r := updateBlock b new_text old_text
    (r.1, some r.2)

/-- The block-size invariant claimed by the spec: `current_chars` equals
the content length and does not exceed `max_chars`. -/
def blockSizeInv (b : StoredBlock) : Prop :=
  ∃ c, b.content? = some c ∧ b.currentChars? = some c.length ∧
    ∃ m, b.maxChars? = some m ∧ c.length ≤ m

theorem isPySpace_a : isPySpace 'a' = false := by decide

theorem dropWhile_replicate_a (n : ℕ) :
    (List.replicate n 'a').dropWhile isPySpace = List.replicate n 'a' := by
  cases n with
  | zero => rfl
  | succ n => simp [List.replicate_succ, List.dropWhile_cons, isPySpace_a]

theorem pyStrip_replicate_a (n : ℕ) :
    pyStrip (List.replicate n 'a') = List.replicate n 'a' := by
  rw [pyStrip, dropWhile_replicate_a, List.reverse_replicate,
    dropWhile_replicate_a, List.reverse_replicate]

theorem updateBlock_of_le (b : StoredBlock) (new_text old_text : List Char)
    (h : (editContent (b.content?.getD []) new_text old_text).length ≤
      b.maxChars?.getD 5000) :
    updateBlock b new_text old_text =
      (true, ⟨some (editContent (b.content?.getD []) new_text old_text),
        some (editContent (b.content?.getD []) new_text old_text).length,
        some (b.maxChars?.getD 5000)⟩) := by
  simp only [updateBlock]
  rw [if_neg (not_lt.mpr h)]

theorem updateBlock_of_gt (b : StoredBlock) (new_text old_text : List Char)
    (h : (editContent (b.content?.getD []) new_text old_text).length >
      b.maxChars?.getD 5000) :
    updateBlock b new_text old_text = (false, b) := by
  simp only [updateBlock]
  rw [if_pos h]

/-- C1 (counterexample): creating a missing vector block from a 5001
character `new_text` succeeds, yet stores `current_chars = 5001` above
`max_chars = 5000`: the creation path performs no size check, so the
claimed invariant `current_chars ≤ max_chars` fails. -/
theorem vector_memory_edit_create_overflow :
    (vector_memory_edit none (List.replicate 5001 'a') []).1 = true ∧
    (vector_memory_edit none (List.replicate 5001 'a') []).2 =
      some ⟨some (List.replicate 5001 'a'), some 5001, some 5000⟩ ∧
    ∀ b, (vector_memory_edit none (List.replicate 5001 'a') []).2 = some b →
      ¬ blockSizeInv b := by
  have hval : vector_memory_edit none (List.replicate 5001 'a') [] =
      (true, some ⟨some (List.replicate 5001 'a'), some 5001, some 5000⟩) := by
    simp only [vector_memory_edit, pyStrip_replicate_a, List.length_replicate]
  refine ⟨by rw [hval], by rw [hval], ?_⟩
  intro b hb
  rw [hval] at hb
  simp only [Option.some.injEq] at hb
  subst hb
  rintro ⟨c, hc, hcur, m, hm, hle⟩
  simp only [Option.some.injEq] at hc hcur hm
  subst hc
  simp only [List.length_replicate] at hle
  omega

/-- C1 (amended): every successful `vector_memory_edit` stores a block
with `current_chars == len(content)`; when the edit updated an *existing*
block it also respects `current_chars ≤ max_chars`, but the creation path
(missing label, `max_chars = 5000`) does not enforce that bound. -/
theorem vector_memory_edit_success_chars (b? : Option StoredBlock)
    (new_text old_text : List Char)
    (h : (vector_memory_edit b? new_text old_text).1 = true) :
    ∃ b' c, (vector_memory_edit b? new_text old_text).2 = some b' ∧
      b'.content? = some c ∧ b'.currentChars? = some c.length ∧
      ∃ m, b'.maxChars? = some m ∧ (b?.isSome = true → c.length ≤ m) := by
  match b? with
  | none =>
    refine ⟨⟨some (pyStrip new_text), some (pyStrip new_text).length,
      some 5000⟩, pyStrip new_text, rfl, rfl, rfl, 5000, rfl, ?_⟩
    intro hsome
    simp at hsome
  | some b =>
    by_cases hgt :
        (editContent (b.content?.getD []) new_text old_text).length >
          b.maxChars?.getD 5000
    · exfalso
      have hfail : vector_memory_edit (some b) new_text old_text =
          (false, some b) := by
        simp only [vector_memory_edit, updateBlock_of_gt b new_text old_text hgt]
      rw [hfail] at h
      exact Bool.false_ne_true h
    · have hok : vector_memory_edit (some b) new_text old_text =
          (true, some ⟨some (editContent (b.content?.getD []) new_text old_text),
            some (editContent (b.content?.getD []) new_text old_text).length,
            some (b.maxChars?.getD 5000)⟩) := by
        simp only [vector_memory_edit,
          updateBlock_of_le b new_text old_text (not_lt.mp hgt)]
      rw [hok]
      exact ⟨_, editContent (b.content?.getD []) new_text old_text,
        rfl, rfl, rfl, b.maxChars?.getD 5000, rfl, fun _ => not_lt.mp hgt⟩

/-- Witness for `vector_memory_edit_success_chars` at a concrete update of
an existing block. -/
theorem vector_memory_edit_success_chars_witness :
    ∃ b' c,
      (vector_memory_edit (some ⟨some ['h', 'i'], none, none⟩) ['x'] []).2 =
        some b' ∧
      b'.content? = some c ∧ b'.currentChars? = some c.length ∧
      ∃ m, b'.maxChars? = some m ∧
        ((some (⟨some ['h', 'i'], none, none⟩ : StoredBlock)).isSome = true →
          c.length ≤ m) :=
  vector_memory_edit_success_chars (some ⟨some ['h', 'i'], none, none⟩)
    ['x'] [] (by decide)

/-- C2 (confirmed): `core_memory_edit` on an existing block succeeds and
writes back exactly when the resulting content fits in `max_chars`
(boundary included); an overflowing edit fails and leaves the stored block
untouched; a missing block fails. -/
theorem core_memory_edit_cases (b? : Option StoredBlock)
    (new_text old_text : List Char) :
    (b? = none → core_memory_edit b? new_text old_text = (false, none)) ∧
    ∀ b, b? = some b →
      ((editContent (b.content?.getD []) new_text old_text).length ≤
          b.maxChars?.getD 5000 →
        core_memory_edit b? new_text old_text =
          (true, some ⟨some (editContent (b.content?.getD []) new_text old_text),
            some (editContent (b.content?.getD []) new_text old_text).length,
            some (b.maxChars?.getD 5000)⟩)) ∧
      ((editContent (b.content?.getD []) new_text old_text).length >
          b.maxChars?.getD 5000 →
        core_memory_edit b? new_text old_text = (false, some b)) := by
  constructor
  · rintro rfl
    rfl
  · rintro b rfl
    constructor
    · intro hle
      simp [core_memory_edit, updateBlock, not_lt.mpr hle]
    · intro hgt
      simp [core_memory_edit, updateBlock, hgt]

/-- Witness for `core_memory_edit_cases` at a concrete existing block
whose appended content (6 chars) overflows `max_chars = 4`. -/
theorem core_memory_edit_cases_witness :
    core_memory_edit (some ⟨some ['a', 'b', 'c'], some 3, some 4⟩)
        ['x', 'y'] [] =
      (false, some ⟨some ['a', 'b', 'c'], some 3, some 4⟩) :=
  ((core_memory_edit_cases (some ⟨some ['a', 'b', 'c'], some 3, some 4⟩)
      ['x', 'y'] []).2 ⟨some ['a', 'b', 'c'], some 3, some 4⟩ rfl).2
    (by decide)

/-! ## Tool-call dispatcher (`src/server/utils/tool_handler.py`) -/

/-- Outcome of invoking a registered Python callable: a normal return
(`none` models Python `None`, values are identified with their string
form) or a raised exception carrying its message. -/
inductive ToolOutcome where
  | ret (v : Option String)
  | raises (e : String)
  deriving DecidableEq

/-- A model-issued tool call: function name plus its (already decoded)
arguments payload. -/
structure ToolCall where
  name : String
  args : String
  deriving DecidableEq

/-- The registered tools of a `ToolCallHandler`: name to callable. -/
def Registry := List (String × (String → ToolOutcome))

/-- The result record built by `execute_tool_call` (the `tool_call_id` and
`function_name` bookkeeping fields are omitted; message texts follow the
source without the quote characters around interpolated names). -/
structure ToolResult where
  success : Bool
  result : Option String
  error : Option String
  deriving DecidableEq

/-- `ToolCallHandler.execute_tool_call`: empty name fails, unknown name
fails, an exception from the callable is captured as a failure record,
otherwise the return value (possibly `None`) is wrapped in a success
record. Exceptions never escape. -/
def execute_tool_call (tools : Registry) (tc : ToolCall) : ToolResult :=
  if tc.name = "" then
    ⟨false, none, some "No function name provided"⟩
  else
    match List.lookup tc.name tools with
    | none => ⟨false, none, some ("Tool " ++ tc.name ++ " not found")⟩
    | some f =>
      match f tc.args with
      | .ret v => ⟨true, v, none⟩
      | .raises e => ⟨false, none, some e⟩

/-- `ToolCallHandler.process_tool_calls`: execute the calls in order; a
successful non-`None` result contributes its value, a failure contributes
`"Error calling <name>: <error>"`, and a successful `None` return
contributes nothing. -/
def process_tool_calls (tools : Registry) : List ToolCall → List String
  | [] => []
  | tc :: rest =>
    let r := execute_tool_call tools tc
    if r.success then
      match r.result with
      | some v => v :: process_tool_calls tools rest
      | none => process_tool_calls tools rest
    else
      ("Error calling " ++ tc.name ++ ": " ++ r.error.getD "Unknown error") ::
        process_tool_calls tools rest

/-- The entry `process_tool_calls` contributes for one call, if any. -/
def toolResultEntry (tools : Registry) (tc : ToolCall) : Option String :=
  let r := execute_tool_call tools tc
  if r.success then r.result
  else some ("Error calling " ++ tc.name ++ ": " ++ r.error.getD "Unknown error")

/-- C5 (counterexample): a single tool call whose callable returns `None`
produces an *empty* result list — not a one-entry list containing `None`:
`process_tool_calls` suppresses `None` results, so the output does not
have one entry per call. -/
theorem process_tool_calls_drops_none :
    process_tool_calls [("t", fun _ => ToolOutcome.ret none)]
        [⟨"t", ""⟩] = [] ∧
    ([] : List String).length ≠ [(⟨"t", ""⟩ : ToolCall)].length := by
  constructor
  · rfl
  · simp

/-- C5 (amended): `process_tool_calls` never raises (it is total) and
returns exactly the in-order entries of the call list, where a failed call
is represented by its `"Error calling <name>: <error>"` string, a
successful non-`None` call by its returned value, and a call returning
`None` by *no* entry at all (`None` results are suppressed, so the output
can be shorter than the call list). -/
theorem process_tool_calls_eq_filterMap (tools : Registry)
    (tcs : List ToolCall) :
    process_tool_calls tools tcs = tcs.filterMap (toolResultEntry tools) := by
  induction tcs with
  | nil => rfl
  | cons tc rest ih =>
    simp only [process_tool_calls, toolResultEntry, List.filterMap_cons]
    by_cases hs : (execute_tool_call tools tc).success
    · cases hr : (execute_tool_call tools tc).result with
      | none => simp [hs, hr, ih]
      | some v => simp [hs, hr, ih]
    · simp [hs, ih]

/-! ## `vector_get` and `memory_search` (`src/server/memory/memtools.py`) -/

/-- The parameter names accepted by
`memory_search(query, n_neighbors=0, top_n=2, exclude="")`. -/
def memory_search_params : List String :=
  ["query", "n_neighbors", "top_n", "exclude"]

/-- The keyword names `vector_get` uses at its call site
`memory_search(query, topn=top_n, exclude="recall")`. -/
def vector_get_kwargs : List String := ["query", "topn", "exclude"]

/-- Python keyword-argument binding: calling function `fname` whose
parameters are `params` with keyword names `kwargs` raises `TypeError` on
an unexpected keyword, and only otherwise runs the body. (Python quotes
the offending argument name; the quotes are omitted here.) -/
def pyCallKwargs (fname : String) (params kwargs : List String)
    (body : Unit → ToolOutcome) : ToolOutcome :=
  match kwargs.find? (fun k => !(params.contains k)) with
  | some bad =>
    .raises ("TypeError: " ++ fname ++
      " got an unexpected keyword argument " ++ bad)
  | none => body ()

/-- The `TypeError` message `vector_get`'s call produces. -/
def topnTypeError : String :=
  "TypeError: memory_search got an unexpected keyword argument topn"

/-- `vector_get(query, top_n)`: its whole body is the call
`memory_search(query, topn=top_n, exclude="recall")`; `memory_search`'s
own behaviour is abstracted as `body` since the call never reaches it. -/
def vector_get (body : Unit → ToolOutcome) : String → ToolOutcome :=
  fun _ =>
    pyCallKwargs "memory_search" memory_search_params vector_get_kwargs body

/-- C10 (confirmed): every `vector_get` invocation raises the `TypeError`
for the unexpected keyword `topn` — whatever `memory_search` would have
returned — and when dispatched through `execute_tool_call` (as registered
for the sleep agent) the result record always has `success = false`
carrying the error, never a normal search result. -/
theorem vector_get_always_type_error (body : Unit → ToolOutcome)
    (args : String) :
    vector_get body args = .raises topnTypeError ∧
    execute_tool_call [("vector_get", vector_get body)]
        ⟨"vector_get", args⟩ =
      ⟨false, none, some topnTypeError⟩ := by
  have hb : vector_get body args = .raises topnTypeError := rfl
  exact ⟨hb, by simp [execute_tool_call, List.lookup, hb]⟩

/-! ## Sleep-time scheduler (`src/server/sleep_time/sleeper_agent.py`) -/

/-- The `AgentState` enum of the sleep-time agent. -/
inductive AgentState where
  | idle
  | processing
  | paused
  | shutdown
  deriving DecidableEq

/-- A queued `MemoryTask` (`data` plus creation timestamp in seconds). -/
structure MemoryTask where
  data : String
  createdAt : ℚ
  deriving DecidableEq

/-- The scheduler state read by one iteration of `_main_loop`. Timestamps
are seconds (`datetime` differences via `total_seconds()`). -/
structure SchedState where
  mainAiActive : Bool
  lastMainAiActivity : Option ℚ
  pauseDelay : ℚ
  agentState : AgentState
  taskQueue : List MemoryTask
  deriving DecidableEq

/-- `SleepTimeAgent._should_pause`: pause while the main AI is active or
the time since its last recorded activity is below the pause delay. -/
def should_pause (s : SchedState) (now : ℚ) : Bool :=
  if s.mainAiActive then true
  else
    match s.lastMainAiActivity with
    | some t => decide (now - t < s.pauseDelay)
    | none => false

/-- One iteration of `SleepTimeAgent._main_loop` (while not shut down):
pause without touching the queue when `_should_pause` holds; otherwise
pop and process the head task when the queue is non-empty, ending the
iteration back in `IDLE`. -/
def mainLoopStep (s : SchedState) (now : ℚ) : SchedState :=
  if should_pause s now then
    { s with agentState := .paused }
  else if s.taskQueue.isEmpty then
    { s with agentState := .idle }
  else
    { s with agentState := .idle, taskQueue := s.taskQueue.tail }

/-- C8 (confirmed): while the foreground-active flag is set, or the time
since the last recorded foreground activity is less than the pause delay,
a main-loop iteration moves to `PAUSED` and removes nothing from the task
queue. -/
theorem sched_pause_no_dequeue (s : SchedState) (now : ℚ)
    (h : s.mainAiActive = true ∨
      ∃ t, s.lastMainAiActivity = some t ∧ now - t < s.pauseDelay) :
    (mainLoopStep s now).taskQueue = s.taskQueue ∧
      (mainLoopStep s now).agentState = .paused := by
  have hp : should_pause s now = true := by
    rcases h with h | ⟨t, ht, hlt⟩
    · simp [should_pause, h]
    · simp [should_pause, ht, hlt]
  simp [mainLoopStep, hp]

/-- Witness for `sched_pause_no_dequeue`: a state paused 3 seconds after
foreground activity with a 15-second pause delay and one queued task. -/
theorem sched_pause_no_dequeue_witness :
    (mainLoopStep ⟨false, some 0, 15, .idle, [⟨"task", 0⟩]⟩ 3).taskQueue =
        [⟨"task", 0⟩] ∧
      (mainLoopStep ⟨false, some 0, 15, .idle, [⟨"task", 0⟩]⟩ 3).agentState =
        .paused :=
  sched_pause_no_dequeue ⟨false, some 0, 15, .idle, [⟨"task", 0⟩]⟩ 3
    (Or.inr ⟨0, rfl, by norm_num⟩)

/-! ## Vector store with embedding cache (`src/server/memory/memtools.py`) -/

/-- The vector directory plus the embedding cache file: `files` maps a
label to its stored block, `cache` is the set of labels believed freshly
embedded. -/
structure MemState where
  files : List (String × StoredBlock)
  cache : List String
  deriving DecidableEq

/-- `clear_cache(label=l)`: discard `l` from the cache set. -/
def clear_cache_label (s : MemState) (l : String) : MemState :=
  { s with cache := s.cache.filter (fun x => x ≠ l) }

/-- `clear_cache(clear_all=True)`: empty the cache set. -/
def clear_cache_all (s : MemState) : MemState :=
  { s with cache := [] }

/-- `embed_all()`: embed every block whose label is not cached and whose
stripped content is non-empty, then add those labels to the cache. -/
def embed_all (s : MemState) : MemState :=
  { s with
    cache := s.cache ++ s.files.filterMap fun p =>
      if p.1 ∈ s.cache then none
      else if pyStrip (p.2.content?.getD []) = [] then none
      else some p.1 }

/-- `vector_memory_edit(label, ...)` on the whole store: a missing file is
created (no cache interaction); a successful update clears the label from
the cache and writes the file; a size-cap failure changes nothing.
Returns the new state and the success flag. -/
def vector_memory_edit_st (s : MemState) (label : String)
    (new_text old_text : List Char) : MemState × Bool :=
  match List.lookup label s.files with
  | none =>
    ({ s with files := (label,
        ⟨some (pyStrip new_text), some (pyStrip new_text).length,
          some 5000⟩) :: s.files }, true)
  | some b =>
    let r := updateBlock b new_text old_text
    if r.1 then
      ({ files := s.files.map fun p => if p.1 = label then (label, r.2) else p,
         cache := (clear_cache_label s label).cache }, true)
    else (s, false)

/-- The store operations that may run between an edit and the next
`embed_all` cycle (an `embed_all`, also the one at the start of every
`vector_search`, is exactly what is excluded). -/
inductive MemOp where
  | edit (label : String) (new_text old_text : List Char)
  | clearLabel (l : String)
  | clearAll

/-- Apply one non-`embed_all` store operation. -/
def applyOp (s : MemState) : MemOp → MemState
  | .edit label new_text old_text => (vector_memory_edit_st s label new_text old_text).1
  | .clearLabel l => clear_cache_label s l
  | .clearAll => clear_cache_all s

/-- Apply a sequence of non-`embed_all` store operations. -/
def applyOps (s : MemState) (ops : List MemOp) : MemState :=
  ops.foldl applyOp s

/-- Reachability invariant of the store: every cached label has a block
file. It holds of the initial state (empty cache) and is preserved by all
operations, `embed_all` included. -/
def cacheInv (s : MemState) : Prop :=
  ∀ l ∈ s.cache, (List.lookup l s.files).isSome = true

theorem applyOp_cache_subset (s : MemState) (op : MemOp) :
    (applyOp s op).cache ⊆ s.cache := by
  cases op with
  | edit label new_text old_text =>
    simp only [applyOp, vector_memory_edit_st]
    cases List.lookup label s.files with
    | none => simp
    | some b =>
      by_cases hr : (updateBlock b new_text old_text).1
      · simp only [hr, if_true, clear_cache_label]
        exact List.filter_subset' _
      · simp [hr]
  | clearLabel l => exact List.filter_subset' _
  | clearAll => simp [applyOp, clear_cache_all]

theorem applyOps_cache_subset (s : MemState) (ops : List MemOp) :
    (applyOps s ops).cache ⊆ s.cache := by
  induction ops generalizing s with
  | nil => exact fun _ h => h
  | cons op rest ih =>
    exact fun l hl => applyOp_cache_subset s op (ih (applyOp s op) hl)

/-- C7 (confirmed): after a successful `vector_memory_edit` on label `L`
— update or creation — starting from a state satisfying the reachability
invariant, `L` is not in the embedding cache set, and it stays absent
under any sequence of store operations that does not include an
`embed_all` cycle. -/
theorem vector_edit_clears_cache (s : MemState) (L : String)
    (new_text old_text : List Char) (hinv : cacheInv s)
    (hsucc : (vector_memory_edit_st s L new_text old_text).2 = true) :
    L ∉ (vector_memory_edit_st s L new_text old_text).1.cache ∧
    ∀ ops : List MemOp,
      L ∉ (applyOps (vector_memory_edit_st s L new_text old_text).1 ops).cache := by
  have habs : L ∉ (vector_memory_edit_st s L new_text old_text).1.cache := by
    revert hsucc
    simp only [vector_memory_edit_st]
    cases hk : List.lookup L s.files with
    | none =>
      intro _ hmem
      have := hinv L hmem
      rw [hk] at this
      simp at this
    | some b =>
      by_cases hr : (updateBlock b new_text old_text).1
      · simp only [hr, if_true, clear_cache_label]
        intro _ hmem
        rcases List.mem_filter.mp hmem with ⟨_, hne⟩
        simp at hne
      · simp [hr]
  exact ⟨habs, fun ops hmem =>
    habs (applyOps_cache_subset _ ops hmem)⟩

/-- Witness for `vector_edit_clears_cache`: creating block `m` in the
empty store, then clearing the whole cache, leaves `m` uncached. -/
theorem vector_edit_clears_cache_witness :
    "m" ∉ (vector_memory_edit_st ⟨[], []⟩ "m" ['h'] []).1.cache ∧
    "m" ∉ (applyOps (vector_memory_edit_st ⟨[], []⟩ "m" ['h'] []).1
      [MemOp.clearAll]).cache :=
  ⟨(vector_edit_clears_cache ⟨[], []⟩ "m" ['h'] [] (by simp [cacheInv])
      rfl).1,
    (vector_edit_clears_cache ⟨[], []⟩ "m" ['h'] [] (by simp [cacheInv])
      rfl).2 [MemOp.clearAll]⟩

/-! ## LLM gateway think-tag splitting (`src/server/utils/ai.py`) -/

/-- The literal `<think>` marker. -/
def thinkOpen : List Char := ['<', 't', 'h', 'i', 'n', 'k', '>']

/-- The literal `</think>` marker. -/
def thinkClose : List Char := ['<', '/', 't', 'h', 'i', 'n', 'k', '>']

/-- Python `s.find(pat)` (index of first occurrence, `none` for -1). -/
def findSub (pat : List Char) : List Char → Option ℕ
  | [] => if pat.isPrefixOf ([] : List Char) then some 0 else none
  | c :: rest =>
    if pat.isPrefixOf (c :: rest) then some 0
    else (findSub pat rest).map (· + 1)

/-- The chunk type tags of the gateway stream. -/
inductive DeltaType where
  | content
  | thinking
  deriving DecidableEq

/-- One streamed chunk record `{type, delta}`. -/
structure Delta where
  ty : DeltaType
  delta : List Char
  deriving DecidableEq

/-- `LLM._process_chunk`: the `while content:` loop splitting a text chunk
on `<think>` / `</think>` markers, threading the `_is_thinking` flag.
Returns the yielded deltas and the flag after the call. -/
def process_chunk : Bool → List Char → List Delta × Bool
  | thinking, [] => ([], thinking)
  | false, c :: cs =>
    Option.elim (findSub thinkOpen (c :: cs))
      ([⟨.content, c :: cs⟩], false)
      (fun i =>
        let rest := process_chunk true ((c :: cs).drop (i + thinkOpen.length))
        ((if 0 < i then [⟨.content, (c :: cs).take i⟩] else []) ++ rest.1,
          rest.2))
  | true, c :: cs =>
    Option.elim (findSub thinkClose (c :: cs))
      ([⟨.thinking, c :: cs⟩], true)
      (fun i =>
        let rest := process_chunk false ((c :: cs).drop (i + thinkClose.length))
        ((if 0 < i then [⟨.thinking, (c :: cs).take i⟩] else []) ++ rest.1,
          rest.2))
termination_by _ content => content.length
decreasing_by
  · simp only [List.length_drop, List.length_cons, thinkOpen]
    omega
  · simp only [List.length_drop, List.length_cons, thinkClose]
    omega

/-- Feeding a sequence of provider chunks through `_process_chunk` with
the `_is_thinking` flag carried across chunks, as the llama-cpp,
openrouter, lmstudio and kobold providers do. -/
def process_stream : Bool → List (List Char) → List Delta × Bool
  | thinking, [] => ([], thinking)
  | thinking, ch :: rest =>
    let r := process_chunk thinking ch
    let r2 := process_stream r.2 rest
    (r.1 ++ r2.1, r2.2)

/-- A chunk free of the tag-opening character. Both markers start with
the character that such a chunk never contains. -/
def noTag (ch : List Char) : Bool :=
  ch.all fun c => c != '<'

theorem isPrefixOf_cons_false (d : Char) (pt l : List Char)
    (h : l.all (fun c => c != d) = true) :
    (d :: pt).isPrefixOf l = false := by
  cases l with
  | nil => rfl
  | cons c cs =>
    have hc : (c != d) = true := by
      rw [List.all_cons, Bool.and_eq_true] at h
      exact h.1
    have hdc : (d == c) = false := by
      rcases Bool.eq_false_or_eq_true (d == c) with ht | hf
      · exact absurd (eq_of_beq ht).symm (bne_iff_ne.mp hc)
      · exact hf
    show ((d == c) && pt.isPrefixOf cs) = false
    rw [hdc, Bool.false_and]

theorem findSub_none_of_all_ne (d : Char) (pt : List Char) :
    ∀ l : List Char, l.all (fun c => c != d) = true →
      findSub (d :: pt) l = none := by
  intro l
  induction l with
  | nil => intro _; rfl
  | cons c cs ih =>
    intro h
    have hcs : cs.all (fun c => c != d) = true := by
      rw [List.all_cons, Bool.and_eq_true] at h
      exact h.2
    simp only [findSub, isPrefixOf_cons_false d pt _ h, Bool.false_eq_true,
      if_false, ih hcs, Option.map_none']

theorem pyContains_false_of_all_ne (d : Char) (pt s : List Char)
    (h : s.all (fun c => c != d) = true) :
    pyContains s (d :: pt) = false := by
  rw [pyContains, List.any_eq_false]
  intro i _
  have hall : (s.drop i).all (fun c => c != d) = true := by
    rw [List.all_eq_true] at h ⊢
    exact fun x hx => h x (List.mem_of_mem_drop hx)
  simp [isPrefixOf_cons_false d pt _ hall]

theorem process_chunk_noTag_false (ch : List Char) (hne : ch ≠ [])
    (h : noTag ch = true) :
    process_chunk false ch = ([⟨.content, ch⟩], false) := by
  match ch, hne with
  | c :: cs, _ =>
    have hf : findSub thinkOpen (c :: cs) = none :=
      findSub_none_of_all_ne '<' _ _ h
    simp [process_chunk, hf]

theorem process_chunk_noTag_true (ch : List Char) (hne : ch ≠ [])
    (h : noTag ch = true) :
    process_chunk true ch = ([⟨.thinking, ch⟩], true) := by
  match ch, hne with
  | c :: cs, _ =>
    have hf : findSub thinkClose (c :: cs) = none :=
      findSub_none_of_all_ne '<' _ _ h
    simp [process_chunk, hf]

theorem isPrefixOf_self_append (l t : List Char) : l.isPrefixOf (l ++ t) = true :=
  List.isPrefixOf_iff_prefix.mpr (List.prefix_append l t)

theorem findSub_marker (d : Char) (pt : List Char) :
    ∀ (c tail : List Char), c.all (fun x => x != d) = true →
      findSub (d :: pt) (c ++ ((d :: pt) ++ tail)) = some c.length := by
  intro c
  induction c with
  | nil =>
    intro tail _
    have hpre : (d :: pt).isPrefixOf (d :: (pt ++ tail)) = true := by
      have h := isPrefixOf_self_append (d :: pt) tail
      simpa using h
    simpa [findSub, hpre] using rfl
  | cons x xs ih =>
    intro tail hall
    rw [List.all_cons, Bool.and_eq_true] at hall
    have hdx : ¬ d = x := fun h => (bne_iff_ne.mp hall.1) h.symm
    have ih' := ih tail hall.2
    simp only [List.cons_append] at ih'
    simp [findSub, hdx, ih']

theorem process_chunk_false_found (l : List Char) (i : ℕ) (hne : l ≠ [])
    (hf : findSub thinkOpen l = some i) :
    process_chunk false l =
      ((if 0 < i then [⟨.content, l.take i⟩] else []) ++
          (process_chunk true (l.drop (i + thinkOpen.length))).1,
        (process_chunk true (l.drop (i + thinkOpen.length))).2) := by
  match l, hne with
  | c :: cs, _ => simp [process_chunk, hf]

theorem process_chunk_true_found (l : List Char) (i : ℕ) (hne : l ≠ [])
    (hf : findSub thinkClose l = some i) :
    process_chunk true l =
      ((if 0 < i then [⟨.thinking, l.take i⟩] else []) ++
          (process_chunk false (l.drop (i + thinkClose.length))).1,
        (process_chunk false (l.drop (i + thinkClose.length))).2) := by
  match l, hne with
  | c :: cs, _ => simp [process_chunk, hf]

theorem drop_append_append (a b t : List Char) :
    (a ++ (b ++ t)).drop (a.length + b.length) = t := by
  rw [← List.append_assoc, ← List.length_append]
  exact List.drop_left _ _

/-- One piece of a provider chunk as the raw model text decomposes: a run
of text free of the marker character, or one whole `<think>`/`</think>`
marker. A chunk given as an item list is rendered by concatenation, so a
marker written as an item always arrives whole within that chunk, possibly
with text around it in the same chunk (`"a<think>b"` is
`[text "a", tagOpen, text "b"]`). -/
inductive StreamItem where
  | text (s : List Char)
  | tagOpen
  | tagClose
  deriving DecidableEq

/-- The raw characters of a chunk described by its items. -/
def renderItems : List StreamItem → List Char
  | [] => []
  | .text s :: rest => s ++ renderItems rest
  | .tagOpen :: rest => thinkOpen ++ renderItems rest
  | .tagClose :: rest => thinkClose ++ renderItems rest

/-- Head of the item list is not a text run (text runs are maximal). -/
def headNotText : List StreamItem → Bool
  | .text _ :: _ => false
  | _ => true

/-- Well-formed decomposition relative to the current mode: text runs are
free of the marker character and maximal, an opening marker occurs only
outside a think segment and a closing one only inside. -/
def wfItems : Bool → List StreamItem → Bool
  | _, [] => true
  | false, .tagOpen :: rest => wfItems true rest
  | true, .tagOpen :: _ => false
  | true, .tagClose :: rest => wfItems false rest
  | false, .tagClose :: _ => false
  | m, .text s :: rest => noTag s && headNotText rest && wfItems m rest

/-- Modelled from the spec: the intended splitter. The gateway splits the
raw text on the `<think>`/`</think>` markers; text between them is emitted
only as `thinking` deltas, text outside only as `content` deltas, the
markers themselves are consumed, and no tag text is ever emitted. -/
def specItems : Bool → List StreamItem → List Delta
  | _, [] => []
  | _, .tagOpen :: rest => specItems true rest
  | _, .tagClose :: rest => specItems false rest
  | m, .text s :: rest =>
    (if s = [] then [] else [⟨if m then .thinking else .content, s⟩]) ++
      specItems m rest

/-- The mode after consuming one chunk, spec side. -/
def endMode : Bool → List StreamItem → Bool
  | m, [] => m
  | _, .tagOpen :: rest => endMode true rest
  | _, .tagClose :: rest => endMode false rest
  | m, .text _ :: rest => endMode m rest

/-- Well-formed chunk sequence: each chunk decomposes well-formed in the
mode reached after the previous chunks (markers never straddle a chunk
boundary). -/
def wfStream : Bool → List (List StreamItem) → Bool
  | _, [] => true
  | m, ch :: rest => wfItems m ch && wfStream (endMode m ch) rest

/-- Modelled from the spec: the intended splitter over a whole stream. -/
def specStream : Bool → List (List StreamItem) → List Delta
  | _, [] => []
  | m, ch :: rest => specItems m ch ++ specStream (endMode m ch) rest

/-- The mode after consuming a whole chunk sequence, spec side. -/
def streamEnd : Bool → List (List StreamItem) → Bool
  | m, [] => m
  | m, ch :: rest => streamEnd (endMode m ch) rest

theorem process_chunk_renderItems_aux :
    ∀ (n : ℕ) (items : List StreamItem), items.length ≤ n → ∀ m : Bool,
      wfItems m items = true →
      process_chunk m (renderItems items) =
        (specItems m items, endMode m items) := by
  intro n
  induction n with
  | zero =>
    intro items hlen m _
    have h0 : items = [] := List.length_eq_zero.mp (Nat.le_zero.mp hlen)
    subst h0
    cases m <;> simp [renderItems, process_chunk, specItems, endMode]
  | succ n ih =>
    intro items hlen m hwf
    cases items with
    | nil => cases m <;> simp [renderItems, process_chunk, specItems, endMode]
    | cons it rest =>
      cases it with
      | tagOpen =>
        cases m with
        | true => simp [wfItems] at hwf
        | false =>
          have hwf' : wfItems true rest = true := by simpa [wfItems] using hwf
          have hlen' : rest.length ≤ n := by
            simp only [List.length_cons] at hlen
            omega
          have hne : thinkOpen ++ renderItems rest ≠ [] := by
            simp [thinkOpen]
          have hfind : findSub thinkOpen (thinkOpen ++ renderItems rest) =
              some 0 := by
            have h := findSub_marker '<' ['t', 'h', 'i', 'n', 'k', '>'] []
              (renderItems rest) rfl
            simpa [thinkOpen] using h
          rw [show renderItems (.tagOpen :: rest) =
            thinkOpen ++ renderItems rest from rfl]
          rw [process_chunk_false_found _ 0 hne hfind]
          have hdrop : (thinkOpen ++ renderItems rest).drop
              (0 + thinkOpen.length) = renderItems rest := by
            simpa using List.drop_left thinkOpen (renderItems rest)
          rw [hdrop, ih rest hlen' true hwf']
          simp [specItems, endMode]
      | tagClose =>
        cases m with
        | false => simp [wfItems] at hwf
        | true =>
          have hwf' : wfItems false rest = true := by simpa [wfItems] using hwf
          have hlen' : rest.length ≤ n := by
            simp only [List.length_cons] at hlen
            omega
          have hne : thinkClose ++ renderItems rest ≠ [] := by
            simp [thinkClose]
          have hfind : findSub thinkClose (thinkClose ++ renderItems rest) =
              some 0 := by
            have h := findSub_marker '<' ['/', 't', 'h', 'i', 'n', 'k', '>'] []
              (renderItems rest) rfl
            simpa [thinkClose] using h
          rw [show renderItems (.tagClose :: rest) =
            thinkClose ++ renderItems rest from rfl]
          rw [process_chunk_true_found _ 0 hne hfind]
          have hdrop : (thinkClose ++ renderItems rest).drop
              (0 + thinkClose.length) = renderItems rest := by
            simpa using List.drop_left thinkClose (renderItems rest)
          rw [hdrop, ih rest hlen' false hwf']
          simp [specItems, endMode]
      | text c =>
        cases m with
        | false =>
          rw [show wfItems false (StreamItem.text c :: rest) =
            (noTag c && headNotText rest && wfItems false rest) from rfl,
            Bool.and_eq_true, Bool.and_eq_true] at hwf
          obtain ⟨⟨hnt, hhead⟩, hwfrest⟩ := hwf
          cases rest with
          | nil =>
            by_cases hcnil : c = []
            · subst hcnil
              simp [renderItems, process_chunk, specItems, endMode]
            · have hrender : renderItems [StreamItem.text c] = c := by
                simp [renderItems]
              rw [hrender, process_chunk_noTag_false c hcnil hnt]
              simp [specItems, endMode, hcnil]
          | cons it' rest' =>
            cases it' with
            | text s => simp [headNotText] at hhead
            | tagClose => simp [wfItems] at hwfrest
            | tagOpen =>
              have hwf' : wfItems true rest' = true := by
                simpa [wfItems] using hwfrest
              have hlen' : rest'.length ≤ n := by
                simp only [List.length_cons] at hlen
                omega
              have hrender : renderItems
                  (StreamItem.text c :: StreamItem.tagOpen :: rest') =
                  c ++ (thinkOpen ++ renderItems rest') := rfl
              have hne : c ++ (thinkOpen ++ renderItems rest') ≠ [] := by
                simp [thinkOpen]
              have hfind : findSub thinkOpen
                  (c ++ (thinkOpen ++ renderItems rest')) = some c.length :=
                findSub_marker '<' ['t', 'h', 'i', 'n', 'k', '>'] c
                  (renderItems rest') hnt
              rw [hrender, process_chunk_false_found _ c.length hne hfind]
              rw [List.take_left, drop_append_append c thinkOpen
                (renderItems rest')]
              rw [ih rest' hlen' true hwf']
              by_cases hcnil : c = []
              · simp [specItems, endMode, hcnil]
              · simp [specItems, endMode, hcnil, List.length_pos]
        | true =>
          rw [show wfItems true (StreamItem.text c :: rest) =
            (noTag c && headNotText rest && wfItems true rest) from rfl,
            Bool.and_eq_true, Bool.and_eq_true] at hwf
          obtain ⟨⟨hnt, hhead⟩, hwfrest⟩ := hwf
          cases rest with
          | nil =>
            by_cases hcnil : c = []
            · subst hcnil
              simp [renderItems, process_chunk, specItems, endMode]
            · have hrender : renderItems [StreamItem.text c] = c := by
                simp [renderItems]
              rw [hrender, process_chunk_noTag_true c hcnil hnt]
              simp [specItems, endMode, hcnil]
          | cons it' rest' =>
            cases it' with
            | text s => simp [headNotText] at hhead
            | tagOpen => simp [wfItems] at hwfrest
            | tagClose =>
              have hwf' : wfItems false rest' = true := by
                simpa [wfItems] using hwfrest
              have hlen' : rest'.length ≤ n := by
                simp only [List.length_cons] at hlen
                omega
              have hrender : renderItems
                  (StreamItem.text c :: StreamItem.tagClose :: rest') =
                  c ++ (thinkClose ++ renderItems rest') := rfl
              have hne : c ++ (thinkClose ++ renderItems rest') ≠ [] := by
                simp [thinkClose]
              have hfind : findSub thinkClose
                  (c ++ (thinkClose ++ renderItems rest')) = some c.length :=
                findSub_marker '<' ['/', 't', 'h', 'i', 'n', 'k', '>'] c
                  (renderItems rest') hnt
              rw [hrender, process_chunk_true_found _ c.length hne hfind]
              rw [List.take_left, drop_append_append c thinkClose
                (renderItems rest')]
              rw [ih rest' hlen' false hwf']
              by_cases hcnil : c = []
              · simp [specItems, endMode, hcnil]
              · simp [specItems, endMode, hcnil, List.length_pos]

theorem process_chunk_renderItems (m : Bool) (items : List StreamItem)
    (hwf : wfItems m items = true) :
    process_chunk m (renderItems items) =
      (specItems m items, endMode m items) :=
  process_chunk_renderItems_aux items.length items le_rfl m hwf

theorem process_stream_renderItems :
    ∀ (chunks : List (List StreamItem)) (m : Bool),
      wfStream m chunks = true →
      process_stream m (chunks.map renderItems) =
        (specStream m chunks, streamEnd m chunks) := by
  intro chunks
  induction chunks with
  | nil => intro m _; rfl
  | cons ch rest ih =>
    intro m hwf
    rw [show wfStream m (ch :: rest) =
      (wfItems m ch && wfStream (endMode m ch) rest) from rfl,
      Bool.and_eq_true] at hwf
    obtain ⟨h1, h2⟩ := hwf
    rw [List.map_cons]
    simp only [process_stream]
    rw [process_chunk_renderItems m ch h1]
    rw [ih (endMode m ch) h2]
    simp [specStream, streamEnd]

theorem specItems_deltas_noTag :
    ∀ (items : List StreamItem) (m : Bool), wfItems m items = true →
      ∀ d ∈ specItems m items, noTag d.delta = true := by
  intro items
  induction items with
  | nil =>
    intro m _ d hd
    simp [specItems] at hd
  | cons it rest ih =>
    intro m hwf d hd
    cases it with
    | tagOpen =>
      cases m with
      | true => simp [wfItems] at hwf
      | false =>
        have hwf' : wfItems true rest = true := by simpa [wfItems] using hwf
        rw [show specItems false (StreamItem.tagOpen :: rest) =
          specItems true rest from rfl] at hd
        exact ih true hwf' d hd
    | tagClose =>
      cases m with
      | false => simp [wfItems] at hwf
      | true =>
        have hwf' : wfItems false rest = true := by simpa [wfItems] using hwf
        rw [show specItems true (StreamItem.tagClose :: rest) =
          specItems false rest from rfl] at hd
        exact ih false hwf' d hd
    | text s =>
      cases m with
      | false =>
        rw [show wfItems false (StreamItem.text s :: rest) =
          (noTag s && headNotText rest && wfItems false rest) from rfl,
          Bool.and_eq_true, Bool.and_eq_true] at hwf
        obtain ⟨⟨hnt, _⟩, hwfrest⟩ := hwf
        rw [show specItems false (StreamItem.text s :: rest) =
          ((if s = [] then []
            else [⟨DeltaType.content, s⟩]) ++ specItems false rest)
          from rfl] at hd
        rcases List.mem_append.mp hd with hd | hd
        · by_cases hnil : s = []
          · simp [hnil] at hd
          · rw [if_neg hnil] at hd
            rcases List.mem_singleton.mp hd with rfl
            exact hnt
        · exact ih false hwfrest d hd
      | true =>
        rw [show wfItems true (StreamItem.text s :: rest) =
          (noTag s && headNotText rest && wfItems true rest) from rfl,
          Bool.and_eq_true, Bool.and_eq_true] at hwf
        obtain ⟨⟨hnt, _⟩, hwfrest⟩ := hwf
        rw [show specItems true (StreamItem.text s :: rest) =
          ((if s = [] then []
            else [⟨DeltaType.thinking, s⟩]) ++ specItems true rest)
          from rfl] at hd
        rcases List.mem_append.mp hd with hd | hd
        · by_cases hnil : s = []
          · simp [hnil] at hd
          · rw [if_neg hnil] at hd
            rcases List.mem_singleton.mp hd with rfl
            exact hnt
        · exact ih true hwfrest d hd

theorem specStream_deltas_noTag :
    ∀ (chunks : List (List StreamItem)) (m : Bool),
      wfStream m chunks = true →
      ∀ d ∈ specStream m chunks, noTag d.delta = true := by
  intro chunks
  induction chunks with
  | nil =>
    intro m _ d hd
    simp [specStream] at hd
  | cons ch rest ih =>
    intro m hwf d hd
    rw [show wfStream m (ch :: rest) =
      (wfItems m ch && wfStream (endMode m ch) rest) from rfl,
      Bool.and_eq_true] at hwf
    obtain ⟨h1, h2⟩ := hwf
    rw [show specStream m (ch :: rest) =
      (specItems m ch ++ specStream (endMode m ch) rest) from rfl] at hd
    rcases List.mem_append.mp hd with hd | hd
    · exact specItems_deltas_noTag ch m h1 d hd
    · exact ih (endMode m ch) h2 d hd

/-- C9 (counterexample): the `<think>` marker split across two provider
chunks (`"<th"` then `"ink>a</think>"`) defeats the splitter: both pieces
are emitted as `content` deltas and the second delivered delta contains
the literal `</think>` tag, although the concatenated raw text is exactly
`<think>a</think>`. -/
theorem process_stream_split_tag_leak :
    (process_stream false [['<', 't', 'h'],
        ['i', 'n', 'k', '>', 'a', '<', '/', 't', 'h', 'i', 'n', 'k', '>']]).1 =
      [⟨.content, ['<', 't', 'h']⟩,
        ⟨.content,
          ['i', 'n', 'k', '>', 'a', '<', '/', 't', 'h', 'i', 'n', 'k', '>']⟩] ∧
    pyContains ['i', 'n', 'k', '>', 'a', '<', '/', 't', 'h', 'i', 'n', 'k', '>']
        thinkClose = true ∧
    ['<', 't', 'h'] ++
        ['i', 'n', 'k', '>', 'a', '<', '/', 't', 'h', 'i', 'n', 'k', '>'] =
      thinkOpen ++ ['a'] ++ thinkClose := by
  refine ⟨?_, by decide, by decide⟩
  have h1 : findSub ['<', 't', 'h', 'i', 'n', 'k', '>'] ['<', 't', 'h'] =
      none := by decide
  have h2 : findSub ['<', 't', 'h', 'i', 'n', 'k', '>']
      ['i', 'n', 'k', '>', 'a', '<', '/', 't', 'h', 'i', 'n', 'k', '>'] =
      none := by decide
  simp [process_stream, process_chunk, thinkOpen, h1, h2]

/-- C9 (amended): for the providers that route text through
`_process_chunk`, whenever each `<think>`/`</think>` marker arrives whole
within a single provider chunk — possibly embedded between text runs of
that same chunk — and the surrounding text is free of the marker
character, the stream splits exactly as specified: marker-enclosed text
comes out only as `thinking` deltas, outside text only as `content`
deltas, and no delivered delta contains either literal tag. (Markers
split across chunk boundaries leak through, and the ollama provider path
bypasses `_process_chunk` entirely.) -/
theorem process_stream_wf_no_tags (m : Bool)
    (chunks : List (List StreamItem)) (hwf : wfStream m chunks = true) :
    (process_stream m (chunks.map renderItems)).1 = specStream m chunks ∧
    ∀ d ∈ (process_stream m (chunks.map renderItems)).1,
      pyContains d.delta thinkOpen = false ∧
      pyContains d.delta thinkClose = false := by
  have heq := process_stream_renderItems chunks m hwf
  refine ⟨by rw [heq], ?_⟩
  intro d hd
  rw [heq] at hd
  have hnt : noTag d.delta = true :=
    specStream_deltas_noTag chunks m hwf d hd
  exact ⟨pyContains_false_of_all_ne '<' _ _ hnt,
    pyContains_false_of_all_ne '<' _ _ hnt⟩

/-- Witness for `process_stream_wf_no_tags`: the two provider chunks
`"a<think>b"` and `"c</think>d"`, each with a marker embedded mid-chunk,
starting outside a marker. -/
theorem process_stream_wf_no_tags_witness :
    (process_stream false ([[StreamItem.text ['a'], StreamItem.tagOpen,
          StreamItem.text ['b']],
        [StreamItem.text ['c'], StreamItem.tagClose,
          StreamItem.text ['d']]].map renderItems)).1 =
      specStream false [[StreamItem.text ['a'], StreamItem.tagOpen,
          StreamItem.text ['b']],
        [StreamItem.text ['c'], StreamItem.tagClose,
          StreamItem.text ['d']]] ∧
    ∀ d ∈ (process_stream false ([[StreamItem.text ['a'], StreamItem.tagOpen,
          StreamItem.text ['b']],
        [StreamItem.text ['c'], StreamItem.tagClose,
          StreamItem.text ['d']]].map renderItems)).1,
      pyContains d.delta thinkOpen = false ∧
      pyContains d.delta thinkClose = false :=
  process_stream_wf_no_tags false
    [[StreamItem.text ['a'], StreamItem.tagOpen, StreamItem.text ['b']],
      [StreamItem.text ['c'], StreamItem.tagClose, StreamItem.text ['d']]]
    (by decide)

/-! ## Vector search (`src/server/memory/memtools.py`) -/

/-- `sum(a * b for a, b in zip(vec1, vec2))`. -/
def dotZip (v w : List ℝ) : ℝ :=
  ((v.zip w).map fun p => p.1 * p.2).sum

/-- `math.sqrt(sum(a * a for a in vec))`. -/
noncomputable def vecNorm (v : List ℝ) : ℝ :=
  Real.sqrt ((v.map fun a => a * a).sum)

/-- `cosine_similarity(vec1, vec2)` with the zero-norm guard returning
`0.0`. Floats are idealised as reals. -/
noncomputable def cosine_similarity (v w : List ℝ) : ℝ :=
  if vecNorm v = 0 ∨ vecNorm w = 0 then 0
  else dotZip v w / (vecNorm v * vecNorm w)

/-- Python `round(x)` to the nearest integer, ties to even. -/
noncomputable def pyRound (x : ℝ) : ℤ :=
  if Int.fract x = 1 / 2 then 2 * round (x / 2) else round x

/-- Python `round(x, 5)`: the result has at most 5 decimal places, so it
is recorded as an exact rational. -/
noncomputable def round5 (x : ℝ) : ℚ :=
  (pyRound (x * 100000) : ℚ) / 100000

/-- One vector-memory file as `vector_search` sees it: its label, stored
`content` field, and the sibling embedding artifact if present. -/
structure VFile where
  label : String
  content : List Char
  embedding : Option (List ℝ)

/-- One entry of the `results` list: `{label, content, score}`. -/
structure SearchResult where
  label : String
  content : List Char
  score : ℚ
  deriving DecidableEq

/-- The loop body of `vector_search` for one directory entry: skip files
without an embedding artifact or with empty stripped content, compute the
rounded cosine score against the query embedding, and drop it when below
the threshold. -/
noncomputable def scoreEntry (qEmb : List ℝ) (threshold : ℚ) (f : VFile) :
    Option SearchResult :=
  Option.elim f.embedding none fun e =>
    if pyStrip f.content = [] then none
    else
      if round5 (cosine_similarity qEmb e) < threshold then none
      else some ⟨f.label, pyStrip f.content, round5 (cosine_similarity qEmb e)⟩

/-- The comparison `results.sort(key=score, reverse=True)` sorts by:
earlier element stays before a later one unless its score is strictly
smaller (Python sorts are stable). -/
def scoreGE (a b : SearchResult) : Prop :=
  b.score ≤ a.score

instance : DecidableRel scoreGE :=
  fun a b => inferInstanceAs (Decidable (b.score ≤ a.score))

instance : IsTotal SearchResult scoreGE :=
  ⟨fun a b => le_total b.score a.score⟩

instance : IsTrans SearchResult scoreGE :=
  ⟨fun _ _ _ hab hbc => le_trans hbc hab⟩

/-- `vector_search(query, top_n, threshold)` given the directory listing
(in enumeration order) and the query embedding: filter and score each
file, sort non-increasing by score with a stable sort, take `top_n`.
(The `embed_all()` refresh and the provider call embedding the query are
modelled as producing the `embedding` artifacts and `qEmb` input.) -/
noncomputable def vector_search (dir : List VFile) (qEmb : List ℝ)
    (top_n : ℕ) (threshold : ℚ) : List SearchResult :=
  (List.insertionSort scoreGE (dir.filterMap (scoreEntry qEmb threshold))).take
    top_n

theorem scoreEntry_eq_some (qEmb : List ℝ) (threshold : ℚ) (f : VFile)
    (r : SearchResult) (h : scoreEntry qEmb threshold f = some r) :
    ∃ e, f.embedding = some e ∧ pyStrip f.content ≠ [] ∧
      ¬ round5 (cosine_similarity qEmb e) < threshold ∧
      r = ⟨f.label, pyStrip f.content, round5 (cosine_similarity qEmb e)⟩ := by
  obtain ⟨lab, cont, emb⟩ := f
  cases emb with
  | none => simp [scoreEntry] at h
  | some e =>
    simp only [scoreEntry, Option.elim] at h
    by_cases h1 : pyStrip cont = []
    · rw [if_pos h1] at h
      exact absurd h (by simp)
    · rw [if_neg h1] at h
      by_cases h2 : round5 (cosine_similarity qEmb e) < threshold
      · rw [if_pos h2] at h
        exact absurd h (by simp)
      · rw [if_neg h2] at h
        refine ⟨e, rfl, h1, h2, ?_⟩
        exact (Option.some.injEq _ _ ▸ h).symm

/-- C6 (amended): every result `vector_search` returns carries the score
`round(cosine_similarity(query, block), 5)` of some directory entry that
has an embedding artifact and non-empty stripped content; no returned
score is below the threshold; the results are sorted non-increasing by
score; and at most `top_n` entries are returned, `top_n = 0` yielding the
empty list. Ties among equal scores follow the stable sort over the
directory enumeration order, *not* ascending label order. -/
theorem vector_search_spec (dir : List VFile) (qEmb : List ℝ)
    (top_n : ℕ) (threshold : ℚ) :
    (∀ r ∈ vector_search dir qEmb top_n threshold,
      threshold ≤ r.score ∧
      ∃ f ∈ dir, ∃ e, f.embedding = some e ∧ r.label = f.label ∧
        r.content = pyStrip f.content ∧
        r.score = round5 (cosine_similarity qEmb e)) ∧
    (vector_search dir qEmb top_n threshold).Pairwise scoreGE ∧
    (vector_search dir qEmb top_n threshold).length ≤ top_n ∧
    (top_n = 0 → vector_search dir qEmb top_n threshold = []) := by
  refine ⟨?_, ?_, ?_, ?_⟩
  · intro r hr
    have hr1 : r ∈ List.insertionSort scoreGE
        (dir.filterMap (scoreEntry qEmb threshold)) :=
      List.take_subset _ _ hr
    have hr2 : r ∈ dir.filterMap (scoreEntry qEmb threshold) :=
      (List.perm_insertionSort scoreGE _).subset hr1
    obtain ⟨f, hf, hfr⟩ := List.mem_filterMap.mp hr2
    obtain ⟨e, he, hne, hth, hr⟩ := scoreEntry_eq_some qEmb threshold f r hfr
    subst hr
    exact ⟨not_lt.mp hth, f, hf, e, he, rfl, rfl, rfl⟩
  · exact List.Pairwise.sublist (List.take_sublist _ _)
      (List.sorted_insertionSort scoreGE _)
  · exact List.length_take_le _ _
  · rintro rfl
    rfl

/-- Witness for `vector_search_spec` at a concrete two-file directory and
`top_n = 1`. -/
theorem vector_search_spec_witness :
    (vector_search [⟨"b", ['x'], some [1]⟩, ⟨"a", ['x'], some [1]⟩]
      [1] 1 (2 / 5)).length ≤ 1 :=
  (vector_search_spec [⟨"b", ['x'], some [1]⟩, ⟨"a", ['x'], some [1]⟩]
    [1] 1 (2 / 5)).2.2.1

theorem cosine_one_one : cosine_similarity [(1 : ℝ)] [(1 : ℝ)] = 1 := by
  have hn : vecNorm [(1 : ℝ)] = 1 := by
    simp [vecNorm]
  simp [cosine_similarity, hn, dotZip]

theorem round5_one : round5 (1 : ℝ) = 1 := by
  have h1 : ((1 : ℝ) * 100000) = ((100000 : ℤ) : ℝ) := by norm_num
  rw [round5, h1]
  have hf : Int.fract ((100000 : ℤ) : ℝ) = 0 := Int.fract_intCast _
  rw [pyRound, hf]
  norm_num

/-- C6 (counterexample): two blocks with identical content and identical
embeddings, listed in the order `b`, `a`, tie at score 1; `vector_search`
returns them in listing order `[b, a]`, not in ascending label order: the
stable sort keeps the directory enumeration order for ties. -/
theorem vector_search_tie_not_ascending :
    vector_search [⟨"b", ['x'], some [1]⟩, ⟨"a", ['x'], some [1]⟩]
        [1] 2 (2 / 5) =
      [⟨"b", ['x'], 1⟩, ⟨"a", ['x'], 1⟩] ∧
    ¬ (vector_search [⟨"b", ['x'], some [1]⟩, ⟨"a", ['x'], some [1]⟩]
          [1] 2 (2 / 5)).Pairwise
        fun r1 r2 => r1.score = r2.score → r1.label ≤ r2.label := by
  have hx : pyStrip ['x'] = ['x'] := by decide
  have hb : scoreEntry [1] (2 / 5) ⟨"b", ['x'], some [1]⟩ =
      some ⟨"b", ['x'], 1⟩ := by
    simp [scoreEntry, hx, cosine_one_one, round5_one]
    norm_num
  have ha : scoreEntry [1] (2 / 5) ⟨"a", ['x'], some [1]⟩ =
      some ⟨"a", ['x'], 1⟩ := by
    simp [scoreEntry, hx, cosine_one_one, round5_one]
    norm_num
  have hres : vector_search [⟨"b", ['x'], some [1]⟩, ⟨"a", ['x'], some [1]⟩]
      [1] 2 (2 / 5) = [⟨"b", ['x'], 1⟩, ⟨"a", ['x'], 1⟩] := by
    simp [vector_search, List.filterMap_cons, hb, ha,
      List.insertionSort, List.orderedInsert, scoreGE]
  refine ⟨hres, ?_⟩
  rw [hres]
  intro hp
  have := (List.pairwise_cons.mp hp).1 ⟨"a", ['x'], 1⟩ (by simp)
  have hba : ("b" : String) ≤ "a" := this rfl
  rw [String.le_iff_toList_le] at hba
  revert hba
  decide

end YK
